import Mathlib

/-!
The remote helper's command loop and the receive-pack session of onchain-git-poc.

A shallow embedding of

* `cmd/git-remote-joystream/main.go`: `reJoystreamURL`, `repository`, `handlePushBatch`,
  `handleList`, `cmdRoot`, `main`;
* `x/gitService/client/cli/joystreamclient.go`: `rpSession`, `NewReceivePackSession`,
  `ReceivePack`, `reportStatus`, `setStatus`.

Go strings are lists of characters (`Str`).  Standard output is the text written so far,
standard error is the list of the diagnostics written so far (one record per `Fprintf`),
and a run ends by returning nil, by returning an error, or by a run-time fault of the Go
program (index out of range).
-/

set_option autoImplicit false

/-- A Go string, as the list of its characters. -/
abbrev Str := List Char

/-! ## The Go library functions the sources call -/

namespace GoLib

/-- Go `unicode.IsSpace`: the Latin-1 spaces and the code points of `White_Space`. -/
def isSpace (c : Char) : Bool :=
  let n := c.toNat
  (9 ≤ n && n ≤ 13) || n = 32 || n = 0x85 || n = 0xA0 || n = 0x1680 ||
  (0x2000 ≤ n && n ≤ 0x200a) || n = 0x2028 || n = 0x2029 || n = 0x202f ||
  n = 0x205f || n = 0x3000

/-- Go `strings.TrimSpace`: the string without its leading and trailing white space. -/
def trimSpace (s : Str) : Str :=
  ((s.dropWhile isSpace).reverse.dropWhile isSpace).reverse

/-- The scan of Go `strings.Fields`: `cur` is the field being read. -/
def fieldsAux : Str → Str → List Str
  | cur, [] => if cur = [] then [] else [cur]
  | cur, c :: cs =>
    if isSpace c then
      (if cur = [] then fieldsAux [] cs else cur :: fieldsAux [] cs)
    else fieldsAux (cur ++ [c]) cs

/-- Go `strings.Fields`: the maximal runs of characters that are not white space. -/
def fields (s : Str) : List Str := fieldsAux [] s

/-- One call of Go `bufio.Reader.ReadString` with the delimiter `\n`: the line up to and
including the first newline and the input left, or `none` (an error, `io.EOF`) when the
input ends before a newline. -/
def readString : Str → Option (Str × Str)
  | [] => none
  | c :: cs =>
    if c = '\n' then some ([c], cs)
    else (readString cs).map fun p => (c :: p.1, p.2)

/-- The lines that successive calls of `ReadString` return before the first call that
fails: what follows the last newline is never returned as a line. -/
def readLines : Str → List Str
  | [] => []
  | c :: cs =>
    if c = '\n' then [c] :: readLines cs
    else match readLines cs with
      | [] => []
      | l :: ls => (c :: l) :: ls

/-- Go `fmt` verb `%v` on a `[]string`: the elements between brackets, separated by one
space. -/
def fmtStrings (xs : List Str) : Str :=
  '[' :: (List.intercalate [' '] xs ++ [']'])

/-! ### Regular expressions: the pieces of `joystream://(.+)/(.+)/(.+)`

A backtracking matcher in continuation style; the alternatives are tried in the priority
order of Go `regexp` (leftmost-first, `+` greedy, `.` any character but newline). -/

/-- A literal: the input after the literal, when the input starts with it. -/
def litThen : Str → Str → Option Str
  | [], s => some s
  | _ :: _, [] => none
  | c :: cs, d :: ds => if c = d then litThen cs ds else none

/-- The group `(.+)` followed by the rest `k` of the pattern: one character that is not a
newline, then preferably more of them (greedy), falling back to `k` when the longer
attempts fail.  The result is the text of the group and the result of `k`. -/
def dotPlusThen {β : Type} (k : Str → Option β) : Str → Option (Str × β)
  | [] => none
  | c :: cs =>
    if c = '\n' then none
    else match dotPlusThen k cs with
      | some (x, r) => some (c :: x, r)
      | none => (k cs).map fun r => ([c], r)

/-- The literal `/` followed by the rest `k` of the pattern. -/
def slashThen {β : Type} (k : Str → Option β) : Str → Option β
  | c :: r => if c = '/' then k r else none
  | [] => none

/-- The end of the pattern: the match is complete wherever the input stands. -/
def accept (_ : Str) : Option Unit := some ()

end GoLib

/-! ## `cmd/git-remote-joystream/main.go` -/

namespace GitRemoteJoystream

open GoLib

/-- The text `joystream://` the pattern starts with. -/
def scheme : Str := "joystream://".toList

/-- The pattern `joystream://(.+)/(.+)/(.+)` matched at the start of the input: the three
groups. -/
def reJoystreamURL.matchHere (s : Str) : Option (Str × Str × Str × Unit) :=
  (litThen scheme s).bind
    (dotPlusThen (slashThen (dotPlusThen (slashThen (dotPlusThen accept)))))

/-- `reJoystreamURL.FindStringSubmatch`: the pattern is not anchored, so the match is
tried at every position from the left; the result holds the whole match and the three
groups, and is `none` (Go `nil`) when nothing matches. -/
def reJoystreamURL.FindStringSubmatch : Str → Option (List Str)
  | [] => none
  | c :: cs =>
    match reJoystreamURL.matchHere (c :: cs) with
    | some (x, y, z, _) => some [scheme ++ x ++ '/' :: y ++ '/' :: z, x, y, z]
    | none => reJoystreamURL.FindStringSubmatch cs

/-- The struct `repository`. -/
structure repository where
  chainID : Str
  owner : Str
  name : Str
deriving DecidableEq, Repr

/-- The method `repository.String`: `Sprintf("%v/%v/%v", chainID, owner, name)`. -/
def repository.String (r : repository) : Str :=
  r.chainID ++ '/' :: r.owner ++ '/' :: r.name

/-- A Go `error` value, by its message. -/
abbrev Error := Str

/-- One diagnostic written to standard error: the `Fprintf(os.Stderr, ...)` calls of
`main.go`, each with the values it prints. -/
inductive Log where
  | handlingPushBatch (repo : repository) (args : List (List Str))
  | listingRefs (repo : repository) (command : List Str)
  | forPushAsList
  | starting (chainID owner name : Str)
  | closedInput
  | receivedCommand (command : Str)
  | blankLine
  | processingPushBatch
  | pushing (arg0 arg1 : Str)
  | pushBatch (batch : List (List Str))
deriving DecidableEq, Repr

/-- What a function call leaves behind on the two output streams. -/
structure Output where
  stdout : Str
  stderr : List Log
deriving DecidableEq, Repr

/-- The function `handlePushBatch`: one diagnostic, one newline on standard output, and
the error `nil`. -/
def handlePushBatch (args : List (List Str)) (repo : repository) : Output × Option Error :=
  (⟨['\n'], [Log.handlingPushBatch repo args]⟩, none)

/-- The function `handleList`. -/
def handleList (repo : repository) (command : List Str) : Output × Option Error :=
  if command = ["for-push".toList] then
    (⟨['\n'], [Log.listingRefs repo command, Log.forPushAsList]⟩, none)
  else if 0 < command.length then
    (⟨[], [Log.listingRefs repo command]⟩,
      some ("Bad list request: ".toList ++ fmtStrings command))
  else
    (⟨['\n'], [Log.listingRefs repo command]⟩, none)

/-- How a run of `cmdRoot` ends. -/
inductive Exit where
  | returned (err : Option Error)
  | fault (msg : Str)
deriving DecidableEq, Repr

/-- The variables of the command loop: the streams written so far and `pushBatch`. -/
structure LoopState where
  stdout : Str
  stderr : List Log
  pushBatch : List (List Str)
deriving DecidableEq, Repr

/-- The state after a call has written `o`. -/
def LoopState.write (st : LoopState) (o : Output) : LoopState :=
  { st with stdout := st.stdout ++ o.stdout, stderr := st.stderr ++ o.stderr }

/-- The state after one diagnostic. -/
def LoopState.log (st : LoopState) (l : Log) : LoopState :=
  { st with stderr := st.stderr ++ [l] }

/-- The body of the `for` loop of `cmdRoot` for one line that `ReadString` returned: the
state after it, and the way the run ends when the body leaves the loop. -/
def loopBody (args : List Str) (repo : repository) (st : LoopState) (line : Str) :
    LoopState × Option Exit :=
  let command := trimSpace line
  let commandParts := fields command
  let st := st.log (Log.receivedCommand command)
  match commandParts with
  | [] =>
    let st := st.log Log.blankLine
    if 0 < st.pushBatch.length then
      let st := st.log Log.processingPushBatch
      match handlePushBatch st.pushBatch repo with
      | (o, some err) => (st.write o, some (Exit.returned (some err)))
      | (o, none) => ({ st.write o with pushBatch := [] }, none)
    else (st, none)
  | cmd :: rest =>
    -- `var err error`: declared, tested after the switch, assigned by no branch
    let err : Option Error := none
    let r : LoopState × Option Exit :=
      if cmd = "capabilities".toList then
        ({ st with stdout := st.stdout ++ "push\n\n".toList }, none)
      else if cmd = "list".toList then
        -- the error that `handleList` returns is not used by the caller
        (st.write (handleList repo rest).1, none)
      else if cmd = "push".toList then
        -- the diagnostic reads `args[0]` and `args[1]` before the append
        match args with
        | a0 :: a1 :: _ =>
          let st := st.log (Log.pushing a0 a1)
          let st := { st with pushBatch := st.pushBatch ++ [rest] }
          (st.log (Log.pushBatch st.pushBatch), none)
        | _ => (st, some (Exit.fault "index out of range".toList))
      else (st, none) -- the switch has no default branch
    match r with
    | (st, some e) => (st, some e)
    | (st, none) =>
      match err with
      | some e => (st, some (Exit.returned (some e)))
      | none => (st, none)

/-- The `for` loop of `cmdRoot` over the lines read from standard input; when the input
is closed the loop is left and `cmdRoot` returns nil. -/
def loop (args : List Str) (repo : repository) : LoopState → List Str → LoopState × Exit
  | st, [] => (st.log Log.closedInput, Exit.returned none)
  | st, line :: lines =>
    match loopBody args repo st line with
    | (st, some e) => (st, e)
    | (st, none) => loop args repo st lines

/-- The choice of the URL among the arguments, first statement of `cmdRoot`: `args[0]`
when there is one argument, `args[1]` otherwise (a fault when there is none). -/
def urlArg : List Str → Option Str
  | [a] => some a
  | _ :: b :: _ => some b
  | [] => none

/-- The parsing of the URL in `cmdRoot`: the error return when the pattern does not
match, the repository built from the three groups otherwise. -/
def parseURL (url : Str) : Except Exit repository :=
  match reJoystreamURL.FindStringSubmatch url with
  | none =>
    Except.error
      (Exit.returned (some ("URL on invalid format: '".toList ++ url ++ "'".toList)))
  | some (_ :: c :: o :: n :: _) => Except.ok { chainID := c, owner := o, name := n }
  | some _ => Except.error (Exit.fault "index out of range".toList)

/-- The function `cmdRoot`, run on the arguments and the content of standard input. -/
def cmdRoot (args : List Str) (stdin : Str) : LoopState × Exit :=
  match urlArg args with
  | none => (⟨[], [], []⟩, Exit.fault "index out of range".toList)
  | some url =>
    match parseURL url with
    | Except.error e => (⟨[], [], []⟩, e)
    | Except.ok repo =>
      loop args repo ⟨[], [Log.starting repo.chainID repo.owner repo.name], []⟩
        (readLines stdin)

/-- The arguments with which `handlePushBatch` was called, read off its diagnostics. -/
def pushBatchCalls : List Log → List (List (List Str))
  | [] => []
  | Log.handlingPushBatch _ args :: ls => args :: pushBatchCalls ls
  | _ :: ls => pushBatchCalls ls

/-- The exit status of the process, from `main`: cobra refuses an argument count outside
1..2 (`RangeArgs(1, 2)`) and any error is fatal (`log.Fatalf`, status 1); a fault ends
the Go program with status 2. -/
def main (args : List Str) (stdin : Str) : LoopState × Nat :=
  if 1 ≤ args.length ∧ args.length ≤ 2 then
    match cmdRoot args stdin with
    | (st, Exit.returned none) => (st, 0)
    | (st, Exit.returned (some _)) => (st, 1)
    | (st, Exit.fault _) => (st, 2)
  else (⟨[], [], []⟩, 1)

end GitRemoteJoystream

/-! ## `x/gitService/client/cli/joystreamclient.go` -/

namespace Cli

/-- The type `plumbing.ReferenceName`, a string. -/
abbrev ReferenceName := Str

/-- A Go `error` value, by its message `Error()`. -/
abbrev Error := Str

/-- The struct `packp.CommandStatus`. -/
structure CommandStatus where
  ReferenceName : ReferenceName
  Status : Str
deriving DecidableEq, Repr

/-- The struct `packp.ReportStatus`. -/
structure ReportStatus where
  UnpackStatus : Str
  CommandStatuses : List CommandStatus
deriving DecidableEq, Repr

/-- The constructor `packp.NewReportStatus`: the zero value. -/
def NewReportStatus : ReportStatus := ⟨[], []⟩

/-- The struct `packp.Command`: one reference update of a request. -/
structure Command where
  Name : ReferenceName
  Old : Str
  New : Str
deriving DecidableEq, Repr

/-- The packfile stream of a request (an `io.ReadCloser`), by what draining it with
`io.Copy` gives (its bytes, or an error) and what `Close` returns. -/
structure Packfile where
  copy : Except Error (List UInt8)
  close : Option Error

/-- The struct `packp.ReferenceUpdateRequest`: the commands and the packfile. -/
structure ReferenceUpdateRequest where
  Commands : List Command
  Packfile : Packfile

/-- The struct `transport.Endpoint`; only `Path` is read by the session. -/
structure Endpoint where
  Path : Str
deriving DecidableEq, Repr

/-- The struct `joystreamClient`; `txBldr` and `cliCtx` are the ledger connection, see
`Ledger`. -/
structure joystreamClient where
  ep : Endpoint
  author : Str
  moduleName : Str
deriving DecidableEq, Repr

/-- A Go map from reference names to errors, as the list of its entries (`none` is the
nil error). -/
abbrev StatusMap := List (ReferenceName × Option Error)

/-- The struct `rpSession` (`authMethod` and `advRefs` are never read); a `cmdStatus` of
`none` is the nil map. -/
structure rpSession where
  endpoint : Endpoint
  cmdStatus : Option StatusMap
  firstErr : Option Error
  unpackErr : Option Error
  client : joystreamClient
deriving DecidableEq, Repr

/-- The method `joystreamClient.NewReceivePackSession`: a session with an empty (not
nil) status map and no error recorded. -/
def NewReceivePackSession (c : joystreamClient) (ep : Endpoint) : rpSession :=
  { endpoint := ep, cmdStatus := some [], firstErr := none, unpackErr := none, client := c }

/-- The method `rpSession.reportStatus`.  `order` is the order in which the `range`
statement visits the entries of the map, which Go leaves unspecified. -/
def reportStatus (order : StatusMap → StatusMap) (s : rpSession) : ReportStatus :=
  let rs := { NewReportStatus with UnpackStatus := "ok".toList }
  let rs :=
    match s.unpackErr with
    | some e => { rs with UnpackStatus := e }
    | none => rs
  match s.cmdStatus with
  | none => rs
  | some m =>
    (order m).foldl
      (fun rs entry =>
        let msg := match entry.2 with
          | some e => e
          | none => "ok".toList
        { rs with CommandStatuses :=
            rs.CommandStatuses ++ [{ ReferenceName := entry.1, Status := msg }] })
      rs

/-- The assignment `m[ref] = err` on a map that is not nil. -/
def StatusMap.set (m : StatusMap) (ref : ReferenceName) (err : Option Error) : StatusMap :=
  if m.any (fun p => p.1 = ref) then
    m.map (fun p => if p.1 = ref then (ref, err) else p)
  else m ++ [(ref, err)]

/-- The method `rpSession.setStatus`; `none` is the fault of assigning into a nil map. -/
def setStatus (s : rpSession) (ref : ReferenceName) (err : Option Error) : Option rpSession :=
  match s.cmdStatus with
  | none => none
  | some m =>
    let s := { s with cmdStatus := some (m.set ref err) }
    if s.firstErr = none ∧ err ≠ none then some { s with firstErr := err } else some s

/-- The ledger side of `ReceivePack`, for a message type `Msg`: the constructor
`gitService.NewMsgUpdateReferences` (repository URI, request, packfile bytes, author)
and `utils.CompleteAndBroadcastTxCli` on the one message, with the client's transaction
builder and context. -/
structure Ledger (Msg : Type) where
  NewMsgUpdateReferences : Str → ReferenceUpdateRequest → List UInt8 → Str → Except Error Msg
  CompleteAndBroadcastTxCli : Msg → Option Error

/-- What a call of `ReceivePack` gives: its two results, or a run-time fault. -/
inductive Result where
  | ret (rs : ReportStatus) (err : Option Error)
  | fault (msg : Str)
deriving DecidableEq, Repr

/-- The report of a result, when there is one. -/
def Result.report : Result → Option ReportStatus
  | Result.ret rs _ => some rs
  | Result.fault _ => none

/-- The error of a result (`none` for nil, and for a fault). -/
def Result.err : Result → Option Error
  | Result.ret _ e => e
  | Result.fault _ => none

/-- The method `rpSession.ReceivePack`.  The slice `s.endpoint.Path[1:]` faults on an
empty path. -/
def ReceivePack {Msg : Type} (order : StatusMap → StatusMap) (ledger : Ledger Msg)
    (s : rpSession) (req : ReferenceUpdateRequest) : Result :=
  match req.Packfile.copy with
  | Except.error err => Result.ret (reportStatus order s) (some err)
  | Except.ok buf =>
    match req.Packfile.close with
    | some err => Result.ret (reportStatus order s) (some err)
    | none =>
      match s.endpoint.Path with
      | [] => Result.fault "slice bounds out of range".toList
      | _ :: repoURI =>
        match ledger.NewMsgUpdateReferences repoURI req buf s.client.author with
        | Except.error err => Result.ret (reportStatus order s) (some err)
        | Except.ok msg =>
          match ledger.CompleteAndBroadcastTxCli msg with
          | some err => Result.ret (reportStatus order s) (some err)
          | none => Result.ret (reportStatus order s) none

/-! ### Sample values -/

/-- A ledger that accepts every message: the message is the list of the reference names
of the request. -/
def acceptingLedger : Ledger (List ReferenceName) where
  NewMsgUpdateReferences := fun _ req _ _ => Except.ok (req.Commands.map Command.Name)
  CompleteAndBroadcastTxCli := fun _ => none

/-- A ledger whose broadcast fails with the error `e`. -/
def failingLedger (e : Error) : Ledger (List ReferenceName) where
  NewMsgUpdateReferences := fun _ req _ _ => Except.ok (req.Commands.map Command.Name)
  CompleteAndBroadcastTxCli := fun _ => some e

/-- A request that updates `refs/heads/master`, with an empty packfile that reads and
closes without error. -/
def masterRequest : ReferenceUpdateRequest where
  Commands := [{ Name := "refs/heads/master".toList, Old := "0".toList, New := "1".toList }]
  Packfile := { copy := Except.ok [], close := none }

/-- A client of the repository `owner/repo`. -/
def sampleClient : joystreamClient where
  ep := { Path := "/owner/repo".toList }
  author := "author".toList
  moduleName := "gitService".toList

end Cli

/-! ## Lemmas on the library functions -/

namespace GoLib

theorem fieldsAux_word (w : Str) (hw : ∀ c ∈ w, isSpace c = false) (cur rest : Str) :
    fieldsAux cur (w ++ rest) = fieldsAux (cur ++ w) rest := by
  induction w generalizing cur with
  | nil => simp
  | cons a w ih =>
    have ha : isSpace a = false := hw a (List.mem_cons_self a w)
    have hw2 : ∀ c ∈ w, isSpace c = false := fun c hc => hw c (List.mem_cons_of_mem a hc)
    simp [fieldsAux, ha, ih hw2]

theorem fieldsAux_spaces (ws : Str) (hws : ∀ c ∈ ws, isSpace c = true) :
    fieldsAux [] ws = [] := by
  induction ws with
  | nil => simp [fieldsAux]
  | cons a ws ih =>
    have ha : isSpace a = true := hws a (List.mem_cons_self a ws)
    simp [fieldsAux, ha, ih (fun c hc => hws c (List.mem_cons_of_mem a hc))]

theorem fieldsAux_append_spaces (s ws : Str) (hws : ∀ c ∈ ws, isSpace c = true)
    (cur : Str) : fieldsAux cur (s ++ ws) = fieldsAux cur s := by
  induction s generalizing cur with
  | nil =>
    cases ws with
    | nil => rfl
    | cons a ws =>
      have ha : isSpace a = true := hws a (List.mem_cons_self a ws)
      have hr := fieldsAux_spaces ws (fun c hc => hws c (List.mem_cons_of_mem a hc))
      simp [fieldsAux, ha, hr]
  | cons a s ih => simp [fieldsAux, ih]

theorem fieldsAux_dropWhile (s : Str) :
    fieldsAux [] (s.dropWhile isSpace) = fieldsAux [] s := by
  induction s with
  | nil => rfl
  | cons a s ih =>
    cases ha : isSpace a with
    | true => simp [List.dropWhile, fieldsAux, ha, ih]
    | false => simp [List.dropWhile, ha]

/-- White space around a line does not change its fields: `strings.Fields` of the
trimmed command is `strings.Fields` of the line. -/
theorem fields_trimSpace (s : Str) : fields (trimSpace s) = fields s := by
  unfold fields trimSpace
  rw [← fieldsAux_dropWhile s]
  generalize s.dropWhile isSpace = l
  have hsplit : l = (l.reverse.dropWhile isSpace).reverse ++
      (l.reverse.takeWhile isSpace).reverse := by
    have h := congrArg List.reverse (List.takeWhile_append_dropWhile isSpace l.reverse)
    rw [List.reverse_append, List.reverse_reverse] at h
    exact h.symm
  have hws : ∀ c ∈ (l.reverse.takeWhile isSpace).reverse, isSpace c = true := by
    intro c hc
    exact (List.mem_takeWhile_imp (List.mem_reverse.mp hc))
  conv_rhs => rw [hsplit]
  exact (fieldsAux_append_spaces _ _ hws []).symm

theorem readLines_line (w : Str) (hw : '\n' ∉ w) (rest : Str) :
    readLines (w ++ '\n' :: rest) = (w ++ ['\n']) :: readLines rest := by
  induction w with
  | nil => simp [readLines]
  | cons a w ih =>
    have ha : a ≠ '\n' := fun h => hw (h ▸ List.mem_cons_self a w)
    have hw2 : '\n' ∉ w := fun h => hw (List.mem_cons_of_mem a h)
    simp [readLines, ha, ih hw2]

theorem readString_line (w : Str) (hw : '\n' ∉ w) (rest : Str) :
    readString (w ++ '\n' :: rest) = some (w ++ ['\n'], rest) := by
  induction w with
  | nil => simp [readString]
  | cons a w ih =>
    have ha : a ≠ '\n' := fun h => hw (h ▸ List.mem_cons_self a w)
    have hw2 : '\n' ∉ w := fun h => hw (List.mem_cons_of_mem a h)
    simp [readString, ha, ih hw2]

/-- The list of lines is what reading line by line gives: the first `ReadString`, then
the lines of the input it leaves, and nothing once `ReadString` fails. -/
theorem readLines_eq_readString (s : Str) :
    readLines s =
      match readString s with
      | none => []
      | some (l, r) => l :: readLines r := by
  induction s with
  | nil => rfl
  | cons a s ih =>
    by_cases ha : a = '\n'
    · simp [readLines, readString, ha]
    · rw [readLines, if_neg ha, readString, if_neg ha, ih]
      cases readString s with
      | none => rfl
      | some p => rfl

theorem litThen_append (lit rest : Str) : litThen lit (lit ++ rest) = some rest := by
  induction lit with
  | nil => cases rest <;> rfl
  | cons a lit ih => simp [litThen, ih]

theorem slashThen_none {β : Type} (k : Str → Option β) (s : Str) (hs : '/' ∉ s) :
    slashThen k s = none := by
  cases s with
  | nil => rfl
  | cons a s =>
    have ha : a ≠ '/' := fun h => hs (h ▸ List.mem_cons_self a s)
    simp [slashThen, ha]

/-- A group followed by `/` cannot match a text without `/`. -/
theorem dotPlusThen_slash_none {β : Type} (k : Str → Option β) (s : Str) (hs : '/' ∉ s) :
    dotPlusThen (slashThen k) s = none := by
  induction s with
  | nil => rfl
  | cons a s ih =>
    have hs2 : '/' ∉ s := fun h => hs (List.mem_cons_of_mem a h)
    by_cases ha : a = '\n'
    · simp [dotPlusThen, ha]
    · simp [dotPlusThen, ha, ih hs2, slashThen_none k s hs2]

/-- Two groups, each followed by `/`, cannot match a text with at most one `/`. -/
theorem dotPlusThen_two_slash_none {β : Type} (k : Str → Option β) (s : Str)
    (hs : s.count '/' ≤ 1) :
    dotPlusThen (slashThen (dotPlusThen (slashThen k))) s = none := by
  induction s with
  | nil => rfl
  | cons a s ih =>
    have hcount : s.count '/' ≤ 1 := by
      have := List.count_le_count_cons '/' a s
      omega
    by_cases ha : a = '\n'
    · simp [dotPlusThen, ha]
    · have hfall : slashThen (dotPlusThen (slashThen k)) s = none := by
        cases s with
        | nil => rfl
        | cons b t =>
          by_cases hb : b = '/'
          · subst hb
            have ht : '/' ∉ t := by
              intro hmem
              have h1 : 0 < t.count '/' := List.count_pos_iff.mpr hmem
              have h2 : ('/' :: t).count '/' = t.count '/' + 1 := List.count_cons_self '/' t
              have h3 := List.count_le_count_cons '/' a ('/' :: t)
              omega
            simp [slashThen, dotPlusThen_slash_none k t ht]
          · simp [slashThen, hb]
      simp [dotPlusThen, ha, ih hcount, hfall]

/-- The last group takes the whole text when the text has no newline. -/
theorem dotPlusThen_accept (s : Str) (hne : s ≠ []) (hnl : '\n' ∉ s) :
    dotPlusThen accept s = some (s, ()) := by
  induction s with
  | nil => exact absurd rfl hne
  | cons a s ih =>
    have ha : a ≠ '\n' := fun h => hnl (h ▸ List.mem_cons_self a s)
    have hs : '\n' ∉ s := fun h => hnl (List.mem_cons_of_mem a h)
    cases s with
    | nil => simp [dotPlusThen, ha, accept]
    | cons b t =>
      rw [dotPlusThen, ih (by simp) hs]
      simp [ha]

/-- A group takes exactly the segment `seg` before a `/` when the rest of the pattern
matches after that `/` and no longer group does. -/
theorem dotPlusThen_segment {β : Type} (k : Str → Option β) (seg rest : Str) (r : β)
    (hne : seg ≠ []) (hnl : '\n' ∉ seg) (hk : k rest = some r)
    (hlong : dotPlusThen (slashThen k) ('/' :: rest) = none) :
    dotPlusThen (slashThen k) (seg ++ '/' :: rest) = some (seg, r) := by
  induction seg with
  | nil => exact absurd rfl hne
  | cons a seg ih =>
    have ha : a ≠ '\n' := fun h => hnl (h ▸ List.mem_cons_self a seg)
    have hs : '\n' ∉ seg := fun h => hnl (List.mem_cons_of_mem a h)
    cases seg with
    | nil =>
      simp only [List.cons_append, List.nil_append]
      rw [dotPlusThen, hlong]
      simp [ha, slashThen, hk]
    | cons b t =>
      have := ih (by simp) hs
      simp only [List.cons_append] at this ⊢
      rw [dotPlusThen]
      simp [ha, this]

end GoLib

/-! ## The command loop, line by line -/

namespace GitRemoteJoystream

open GoLib

theorem loopBody_blank (args : List Str) (repo : repository) (st : LoopState) (line : Str)
    (h : fields line = []) :
    loopBody args repo st line =
      if 0 < st.pushBatch.length then
        ({ stdout := st.stdout ++ ['\n'],
           stderr := st.stderr ++ [Log.receivedCommand (trimSpace line), Log.blankLine,
             Log.processingPushBatch, Log.handlingPushBatch repo st.pushBatch],
           pushBatch := [] }, none)
      else
        ({ st with stderr := st.stderr ++
            [Log.receivedCommand (trimSpace line), Log.blankLine] }, none) := by
  unfold loopBody
  simp only [fields_trimSpace, h]
  by_cases hb : 0 < st.pushBatch.length
  · simp [hb, handlePushBatch, LoopState.log, LoopState.write]
  · simp [hb, LoopState.log]

theorem loopBody_capabilities (args : List Str) (repo : repository) (st : LoopState)
    (line : Str) (rest : List Str) (h : fields line = "capabilities".toList :: rest) :
    loopBody args repo st line =
      ({ st with stdout := st.stdout ++ "push\n\n".toList,
                 stderr := st.stderr ++ [Log.receivedCommand (trimSpace line)] }, none) := by
  unfold loopBody
  simp only [fields_trimSpace, h]
  simp [LoopState.log]

theorem loopBody_push (a0 a1 : Str) (more : List Str) (repo : repository) (st : LoopState)
    (line : Str) (rest : List Str) (h : fields line = "push".toList :: rest) :
    loopBody (a0 :: a1 :: more) repo st line =
      ({ stdout := st.stdout,
         stderr := st.stderr ++ [Log.receivedCommand (trimSpace line), Log.pushing a0 a1,
           Log.pushBatch (st.pushBatch ++ [rest])],
         pushBatch := st.pushBatch ++ [rest] }, none) := by
  unfold loopBody
  simp only [fields_trimSpace, h]
  simp [LoopState.log]

/-- Under an invocation with a single argument, every `push` line ends the run in a
fault, before anything is appended to the batch. -/
theorem loopBody_push_one_argument (a0 : Str) (repo : repository) (st : LoopState)
    (line : Str) (rest : List Str) (h : fields line = "push".toList :: rest) :
    loopBody [a0] repo st line =
      ({ st with stderr := st.stderr ++ [Log.receivedCommand (trimSpace line)] },
        some (Exit.fault "index out of range".toList)) := by
  unfold loopBody
  simp only [fields_trimSpace, h]
  simp [LoopState.log]

theorem loopBody_list (args : List Str) (repo : repository) (st : LoopState)
    (line : Str) (rest : List Str) (h : fields line = "list".toList :: rest) :
    loopBody args repo st line =
      (((st.log (Log.receivedCommand (trimSpace line))).write (handleList repo rest).1),
        none) := by
  unfold loopBody
  simp only [fields_trimSpace, h]
  simp

theorem loopBody_other (args : List Str) (repo : repository) (st : LoopState)
    (line cmd : Str) (rest : List Str) (h : fields line = cmd :: rest)
    (h1 : cmd ≠ "capabilities".toList) (h2 : cmd ≠ "list".toList)
    (h3 : cmd ≠ "push".toList) :
    loopBody args repo st line =
      ({ st with stderr := st.stderr ++ [Log.receivedCommand (trimSpace line)] }, none) := by
  unfold loopBody
  simp only [fields_trimSpace, h, h1, h2, h3, if_false]
  simp [LoopState.log]

theorem pushBatchCalls_append (l1 l2 : List Log) :
    pushBatchCalls (l1 ++ l2) = pushBatchCalls l1 ++ pushBatchCalls l2 := by
  induction l1 with
  | nil => rfl
  | cons a l ih => cases a <;> simp [pushBatchCalls, ih]

/-- Under an invocation with two (or more) arguments, a run of `push` lines leaves the
loop with their arguments appended to the batch, in the order read, and with nothing
written to standard output and no call of `handlePushBatch`. -/
theorem loop_push_lines (a0 a1 : Str) (more : List Str) (repo : repository)
    (lines : List Str) (specs : List (List Str))
    (h : List.Forall₂ (fun l sp => fields l = "push".toList :: sp) lines specs)
    (st : LoopState) (rest : List Str) :
    ∃ st2 : LoopState,
      loop (a0 :: a1 :: more) repo st (lines ++ rest) = loop (a0 :: a1 :: more) repo st2 rest ∧
      st2.stdout = st.stdout ∧ st2.pushBatch = st.pushBatch ++ specs ∧
      pushBatchCalls st2.stderr = pushBatchCalls st.stderr := by
  induction h generalizing st with
  | nil => exact ⟨st, rfl, rfl, by simp, rfl⟩
  | @cons l sp ls sps hl _ ih =>
    obtain ⟨st2, h1, h2, h3, h4⟩ := ih
      { stdout := st.stdout,
        stderr := st.stderr ++ [Log.receivedCommand (trimSpace l), Log.pushing a0 a1,
          Log.pushBatch (st.pushBatch ++ [sp])],
        pushBatch := st.pushBatch ++ [sp] }
    refine ⟨st2, ?_, h2, ?_, ?_⟩
    · simp only [List.cons_append, loop, loopBody_push a0 a1 more repo st l sp hl]
      exact h1
    · simpa using h3
    · simpa [pushBatchCalls_append, pushBatchCalls] using h4

/-- Under an invocation with two (or more) arguments: `k >= 1` push lines and a blank
line, read with an empty pending batch, give exactly one more call of `handlePushBatch`,
with the `k` argument lists in the order read, one newline on standard output and an
empty batch; a blank line right after that calls nothing and writes nothing. -/
theorem loop_push_batch (a0 a1 : Str) (more : List Str) (repo : repository)
    (lines : List Str) (specs : List (List Str))
    (h : List.Forall₂ (fun l sp => fields l = "push".toList :: sp) lines specs)
    (hk : 1 ≤ lines.length) (blank : Str) (hblank : fields blank = [])
    (st : LoopState) (hst : st.pushBatch = []) (rest : List Str) :
    ∃ st2 : LoopState,
      loop (a0 :: a1 :: more) repo st (lines ++ blank :: rest) =
        loop (a0 :: a1 :: more) repo st2 rest ∧
      st2.stdout = st.stdout ++ ['\n'] ∧ st2.pushBatch = [] ∧
      pushBatchCalls st2.stderr = pushBatchCalls st.stderr ++ [specs] ∧
      ∀ rest2 : List Str, ∃ st3 : LoopState,
        loop (a0 :: a1 :: more) repo st2 (blank :: rest2) =
          loop (a0 :: a1 :: more) repo st3 rest2 ∧
        st3.stdout = st2.stdout ∧ st3.pushBatch = [] ∧
        pushBatchCalls st3.stderr = pushBatchCalls st2.stderr := by
  obtain ⟨s1, e1, o1, b1, c1⟩ := loop_push_lines a0 a1 more repo lines specs h st (blank :: rest)
  have hlen : 0 < s1.pushBatch.length := by
    rw [b1, hst, List.nil_append, ← h.length_eq]
    exact hk
  refine ⟨{ stdout := s1.stdout ++ ['\n'],
            stderr := s1.stderr ++ [Log.receivedCommand (trimSpace blank), Log.blankLine,
              Log.processingPushBatch, Log.handlingPushBatch repo s1.pushBatch],
            pushBatch := [] }, ?_, ?_, rfl, ?_, ?_⟩
  · rw [e1]
    simp only [loop, loopBody_blank _ repo s1 blank hblank, hlen, if_true]
  · simp [o1]
  · simp [pushBatchCalls_append, pushBatchCalls, c1, b1, hst]
  · intro rest2
    refine ⟨{ stdout := s1.stdout ++ ['\n'],
              stderr := (s1.stderr ++ [Log.receivedCommand (trimSpace blank), Log.blankLine,
                Log.processingPushBatch, Log.handlingPushBatch repo s1.pushBatch]) ++
                [Log.receivedCommand (trimSpace blank), Log.blankLine],
              pushBatch := [] }, ?_, rfl, rfl, ?_⟩
    · simp only [loop, loopBody_blank _ repo _ blank hblank]
      simp
    · simp [pushBatchCalls_append, pushBatchCalls]

theorem fields_push_line (refspec : Str) (hne : refspec ≠ [])
    (htok : ∀ c ∈ refspec, isSpace c = false) :
    fields ("push ".toList ++ refspec ++ ['\n']) = ["push".toList, refspec] := by
  have hshape : "push ".toList ++ refspec ++ ['\n'] =
      "push".toList ++ (' ' :: (refspec ++ ['\n'])) := by simp
  have hpush : ∀ c ∈ "push".toList, isSpace c = false := by decide
  have hsp : isSpace ' ' = true := by decide
  have hnl : isSpace '\n' = true := by decide
  unfold fields
  rw [hshape, fieldsAux_word _ hpush, List.nil_append]
  rw [fieldsAux, if_pos hsp, fieldsAux_word _ htok, List.nil_append]
  simp [fieldsAux, hnl, hne]

theorem newline_not_mem_token (w : Str) (htok : ∀ c ∈ w, isSpace c = false) : '\n' ∉ w := by
  intro hmem
  have h1 := htok _ hmem
  have h2 : isSpace '\n' = true := by decide
  rw [h2] at h1
  exact Bool.noConfusion h1

/-! ## The claims on the command loop -/

/-- C1, as stated, fails: after `push refs/heads/master:refs/heads/master` and a blank
line, under a two-argument invocation, standard output holds one newline and not the
report `unpack ok`, `ok refs/heads/master`, blank line. -/
theorem push_batch_output_is_not_a_report :
    (cmdRoot ["origin".toList, "joystream://c/o/n".toList]
        "push refs/heads/master:refs/heads/master\n\n".toList).1.stdout = "\n".toList ∧
    (cmdRoot ["origin".toList, "joystream://c/o/n".toList]
        "push refs/heads/master:refs/heads/master\n\n".toList).1.stdout ≠
      "unpack ok\nok refs/heads/master\n\n".toList := by
  decide

/-- C1, amended: under an invocation with two arguments whose URL parses, for every
refspec (a non-empty token without white space), the input `push <refspec>`, newline,
blank line is read to the end without error, `handlePushBatch` is called exactly once,
with that refspec, and standard output holds exactly one newline (no unpack line and no
line per reference). -/
theorem push_batch_output_blank_line (a0 a1 : Str) (repo : repository) (refspec : Str)
    (hurl : parseURL a1 = Except.ok repo) (hne : refspec ≠ [])
    (htok : ∀ c ∈ refspec, isSpace c = false) :
    (cmdRoot [a0, a1] ("push ".toList ++ refspec ++ "\n\n".toList)).1.stdout = "\n".toList ∧
    (cmdRoot [a0, a1] ("push ".toList ++ refspec ++ "\n\n".toList)).2 =
      Exit.returned none ∧
    pushBatchCalls
      (cmdRoot [a0, a1] ("push ".toList ++ refspec ++ "\n\n".toList)).1.stderr =
        [[[refspec]]] := by
  have hin : "push ".toList ++ refspec ++ "\n\n".toList =
      ("push ".toList ++ refspec) ++ '\n' :: ['\n'] := by simp
  have hw : '\n' ∉ "push ".toList ++ refspec := by
    intro hmem
    rcases List.mem_append.mp hmem with h | h
    · revert h
      decide
    · exact newline_not_mem_token refspec htok h
  have hlines : readLines ("push ".toList ++ refspec ++ "\n\n".toList) =
      [("push ".toList ++ refspec ++ ['\n'])] ++ ['\n'] :: [] := by
    rw [hin, readLines_line _ hw]
    rfl
  have hpush : List.Forall₂ (fun l sp => fields l = "push".toList :: sp)
      [("push ".toList ++ refspec ++ ['\n'])] [[refspec]] :=
    List.Forall₂.cons (fields_push_line refspec hne htok) List.Forall₂.nil
  obtain ⟨st2, e, o, _, c, _⟩ := loop_push_batch a0 a1 [] repo _ _ hpush (by simp) ['\n']
    (by decide) ⟨[], [Log.starting repo.chainID repo.owner repo.name], []⟩ rfl []
  have hrun : cmdRoot [a0, a1] ("push ".toList ++ refspec ++ "\n\n".toList) =
      (st2.log Log.closedInput, Exit.returned none) := by
    unfold cmdRoot
    simp only [urlArg, hurl, hlines]
    rw [e]
    rfl
  rw [hrun]
  refine ⟨?_, rfl, ?_⟩
  · simpa [LoopState.log] using o
  · simp [LoopState.log, pushBatchCalls_append, c, pushBatchCalls]

/-- Witness of C1 amended: `push refs/heads/master:refs/heads/master`. -/
theorem push_batch_output_blank_line_witness :
    (cmdRoot ["origin".toList, "joystream://c/o/n".toList]
      ("push ".toList ++ "refs/heads/master:refs/heads/master".toList ++
        "\n\n".toList)).1.stdout = "\n".toList :=
  (push_batch_output_blank_line "origin".toList "joystream://c/o/n".toList
    { chainID := "c".toList, owner := "o".toList, name := "n".toList }
    "refs/heads/master:refs/heads/master".toList rfl (by decide) (by decide)).1

/-- C4, at the failing input: under the invocation with the URL as its only argument,
two push lines and a blank line end in a run-time fault at the first push line, and
`handlePushBatch` is never called. -/
theorem one_argument_batch_is_never_handled :
    (cmdRoot ["joystream://c/o/n".toList] "push a:b\npush c:d\n\n".toList).2 =
      Exit.fault "index out of range".toList ∧
    pushBatchCalls
      (cmdRoot ["joystream://c/o/n".toList] "push a:b\npush c:d\n\n".toList).1.stderr = [] ∧
    pushBatchCalls
      (cmdRoot ["origin".toList, "joystream://c/o/n".toList]
        "push a:b\npush c:d\n\n".toList).1.stderr =
      [[["a:b".toList], ["c:d".toList]]] := by
  decide

/-- C5: under an invocation whose URL parses, in every state of the loop, a line whose
first token is `capabilities` appends exactly `push`, newline, newline to standard
output, leaves the pending batch as it is and does not leave the loop; and the input
`capabilities`, newline, newline gives exactly that output and the return of nil. -/
theorem capabilities_output (args : List Str) (url : Str) (repo : repository)
    (st : LoopState) (line : Str)
    (harg : urlArg args = some url) (hurl : parseURL url = Except.ok repo)
    (h : (fields line).head? = some "capabilities".toList) :
    (loopBody args repo st line).1.stdout = st.stdout ++ "push\n\n".toList ∧
    (loopBody args repo st line).1.pushBatch = st.pushBatch ∧
    (loopBody args repo st line).2 = none ∧
    (cmdRoot args "capabilities\n\n".toList).1.stdout = "push\n\n".toList ∧
    (cmdRoot args "capabilities\n\n".toList).2 = Exit.returned none := by
  have hbody : ∀ (s : LoopState) (l : Str) (rest : List Str),
      fields l = "capabilities".toList :: rest →
      loopBody args repo s l =
        ({ s with stdout := s.stdout ++ "push\n\n".toList,
                  stderr := s.stderr ++ [Log.receivedCommand (trimSpace l)] }, none) :=
    fun s l rest hl => loopBody_capabilities args repo s l rest hl
  have hfields : ∃ rest, fields line = "capabilities".toList :: rest := by
    cases hf : fields line with
    | nil => rw [hf] at h; exact Option.noConfusion h
    | cons a rest =>
      rw [hf] at h
      exact ⟨rest, by rw [Option.some.inj h]⟩
  obtain ⟨rest, hrest⟩ := hfields
  have hrun : cmdRoot args "capabilities\n\n".toList =
      (({ stdout := "push\n\n".toList,
          stderr := [Log.starting repo.chainID repo.owner repo.name,
            Log.receivedCommand "capabilities".toList, Log.receivedCommand [],
            Log.blankLine, Log.closedInput],
          pushBatch := [] } : LoopState), Exit.returned none) := by
    have hl : readLines "capabilities\n\n".toList = ["capabilities\n".toList, "\n".toList] := by
      decide
    have h1 : fields "capabilities\n".toList = "capabilities".toList :: [] := by decide
    have h2 : fields "\n".toList = [] := by decide
    have hcaps := hbody ⟨[], [Log.starting repo.chainID repo.owner repo.name], []⟩ _ _ h1
    unfold cmdRoot
    rw [harg]
    simp only [hurl]
    rw [hl, loop, hcaps]
    simp only []
    rw [loop, loopBody_blank _ _ _ _ h2]
    rfl
  rw [hbody st line rest hrest, hrun]
  exact ⟨rfl, rfl, rfl, rfl, rfl⟩

/-- Witness of C5: the line `capabilities` with a pending batch of one refspec, under
the one-argument invocation. -/
theorem capabilities_output_witness :
    (loopBody ["joystream://c/o/n".toList]
        { chainID := "c".toList, owner := "o".toList, name := "n".toList }
        ⟨"\n".toList, [], [["a:b".toList]]⟩ "capabilities\n".toList).1.stdout =
      "\n".toList ++ "push\n\n".toList ∧
    (cmdRoot ["joystream://c/o/n".toList] "capabilities\n\n".toList).1.stdout =
      "push\n\n".toList :=
  have h := capabilities_output ["joystream://c/o/n".toList] "joystream://c/o/n".toList
    { chainID := "c".toList, owner := "o".toList, name := "n".toList }
    ⟨"\n".toList, [], [["a:b".toList]]⟩ "capabilities\n".toList rfl rfl (by decide)
  ⟨h.1, h.2.2.2.1⟩

/-! ## The claims on the URL -/

theorem dotPlusThen_slash_cons_none {β : Type} (k : Str → Option β) (rest : Str)
    (h1 : dotPlusThen (slashThen k) rest = none) (h2 : slashThen k rest = none) :
    dotPlusThen (slashThen k) ('/' :: rest) = none := by
  have hs : ('/' : Char) ≠ '\n' := by decide
  rw [dotPlusThen, if_neg hs, h1]
  simp only [h2, Option.map_none']

theorem matchHere_three_segments (c o n : Str) (hc : c ≠ []) (ho : o ≠ []) (hn : n ≠ [])
    (hos : '/' ∉ o) (hns : '/' ∉ n)
    (hcl : '\n' ∉ c) (hol : '\n' ∉ o) (hnl : '\n' ∉ n) :
    reJoystreamURL.matchHere (scheme ++ (c ++ '/' :: (o ++ '/' :: n))) =
      some (c, o, n, ()) := by
  have h3 : dotPlusThen accept n = some (n, ()) := dotPlusThen_accept n hn hnl
  have hlong2 : dotPlusThen (slashThen (dotPlusThen accept)) ('/' :: n) = none :=
    dotPlusThen_slash_cons_none _ n (dotPlusThen_slash_none _ n hns) (slashThen_none _ n hns)
  have h2 : dotPlusThen (slashThen (dotPlusThen accept)) (o ++ '/' :: n) = some (o, n, ()) :=
    dotPlusThen_segment _ o n (n, ()) ho hol h3 hlong2
  have hcount : (o ++ '/' :: n).count '/' ≤ 1 := by
    rw [List.count_append, List.count_cons_self, List.count_eq_zero_of_not_mem hos,
      List.count_eq_zero_of_not_mem hns]
  have hhead : slashThen (dotPlusThen (slashThen (dotPlusThen accept))) (o ++ '/' :: n) =
      none := by
    cases o with
    | nil => exact absurd rfl ho
    | cons a t =>
      have ha : a ≠ '/' := fun h => hos (h ▸ List.mem_cons_self a t)
      simp [slashThen, ha]
  have hlong1 : dotPlusThen (slashThen (dotPlusThen (slashThen (dotPlusThen accept))))
      ('/' :: (o ++ '/' :: n)) = none :=
    dotPlusThen_slash_cons_none _ _ (dotPlusThen_two_slash_none _ _ hcount) hhead
  have h1 : dotPlusThen (slashThen (dotPlusThen (slashThen (dotPlusThen accept))))
      (c ++ '/' :: (o ++ '/' :: n)) = some (c, o, n, ()) :=
    dotPlusThen_segment _ c _ (o, n, ()) hc hcl h2 hlong1
  unfold reJoystreamURL.matchHere
  rw [litThen_append, Option.some_bind, h1]

/-- C6: for non-empty `c`, `o`, `n` without `/` and without newline, the pattern matches
`joystream://c/o/n` with the groups `c`, `o`, `n`, the URL parsing of `cmdRoot` builds
the repository of chain `c`, owner `o` and name `n`, and its `String` is `c/o/n`. -/
theorem url_round_trip (c o n : Str) (hc : c ≠ []) (ho : o ≠ []) (hn : n ≠ [])
    (hcs : '/' ∉ c) (hos : '/' ∉ o) (hns : '/' ∉ n)
    (hcl : '\n' ∉ c) (hol : '\n' ∉ o) (hnl : '\n' ∉ n) :
    reJoystreamURL.FindStringSubmatch ("joystream://".toList ++ c ++ ['/'] ++ o ++ ['/'] ++ n) =
      some ["joystream://".toList ++ c ++ ['/'] ++ o ++ ['/'] ++ n, c, o, n] ∧
    parseURL ("joystream://".toList ++ c ++ ['/'] ++ o ++ ['/'] ++ n) =
      Except.ok { chainID := c, owner := o, name := n } ∧
    repository.String { chainID := c, owner := o, name := n } =
      c ++ ['/'] ++ o ++ ['/'] ++ n := by
  have _ := hcs
  have hshape : "joystream://".toList ++ c ++ ['/'] ++ o ++ ['/'] ++ n =
      scheme ++ (c ++ '/' :: (o ++ '/' :: n)) := by simp [scheme]
  have hcons : scheme ++ (c ++ '/' :: (o ++ '/' :: n)) =
      'j' :: ("oystream://".toList ++ (c ++ '/' :: (o ++ '/' :: n))) := rfl
  have hmatch := matchHere_three_segments c o n hc ho hn hos hns hcl hol hnl
  have hfind : reJoystreamURL.FindStringSubmatch (scheme ++ (c ++ '/' :: (o ++ '/' :: n))) =
      some [scheme ++ c ++ '/' :: o ++ '/' :: n, c, o, n] := by
    rw [hcons, reJoystreamURL.FindStringSubmatch, ← hcons, hmatch]
  refine ⟨?_, ?_, ?_⟩
  · rw [hshape, hfind]
    simp
  · rw [hshape]
    unfold parseURL
    rw [hfind]
  · simp [repository.String]

/-- Witness of C6: `joystream://c1/o1/r1`. -/
theorem url_round_trip_witness :
    parseURL "joystream://c1/o1/r1".toList =
      Except.ok { chainID := "c1".toList, owner := "o1".toList, name := "r1".toList } ∧
    repository.String { chainID := "c1".toList, owner := "o1".toList, name := "r1".toList } =
      "c1/o1/r1".toList :=
  have h := url_round_trip "c1".toList "o1".toList "r1".toList (by decide) (by decide)
    (by decide) (by decide) (by decide) (by decide) (by decide) (by decide) (by decide)
  ⟨h.2.1, h.2.2⟩

/-- C7, at the failing inputs: `joystream://a/b/c/d` has four path segments and
`joystream://a/b//` has two, yet both match the pattern; `cmdRoot` builds a repository
(chain `a/b`, owner `c`, name `d`) and enters the command loop.  The URL
`joystream://a/b` is refused with the format error. -/
theorem four_segment_url_is_accepted :
    parseURL "joystream://a/b/c/d".toList =
      Except.ok { chainID := "a/b".toList, owner := "c".toList, name := "d".toList } ∧
    parseURL "joystream://a/b//".toList =
      Except.ok { chainID := "a".toList, owner := "b".toList, name := "/".toList } ∧
    cmdRoot ["origin".toList, "joystream://a/b/c/d".toList] "capabilities\n".toList =
      (⟨"push\n\n".toList,
        [Log.starting "a/b".toList "c".toList "d".toList,
          Log.receivedCommand "capabilities".toList, Log.closedInput], []⟩,
        Exit.returned none) ∧
    parseURL "joystream://a/b".toList =
      Except.error
        (Exit.returned (some "URL on invalid format: 'joystream://a/b'".toList)) := by
  exact ⟨rfl, rfl, rfl, rfl⟩

/-! ## The claims on the commands that are not served -/

/-- C8, as stated, fails: after the unknown command `fetch` the loop goes on reading
(it answers the `capabilities` line that follows), `cmdRoot` returns nil and the
process exits with status 0. -/
theorem unknown_command_does_not_stop_the_loop :
    (cmdRoot ["origin".toList, "joystream://c/o/n".toList]
        "fetch abc refs/heads/master\ncapabilities\n".toList).1.stdout = "push\n\n".toList ∧
    (cmdRoot ["origin".toList, "joystream://c/o/n".toList]
        "fetch abc refs/heads/master\ncapabilities\n".toList).2 = Exit.returned none ∧
    (main ["origin".toList, "joystream://c/o/n".toList]
        "fetch abc refs/heads/master\ncapabilities\n".toList).2 = 0 := by
  decide

/-- C8, amended: a line whose first token is none of `capabilities`, `list`, `push` is
skipped: the loop body writes nothing to standard output, leaves the pending batch as it
is, returns no error, and the loop goes on with the lines that follow. -/
theorem unknown_command_is_skipped (args : List Str) (repo : repository) (st : LoopState)
    (line cmd : Str) (h : (fields line).head? = some cmd)
    (h1 : cmd ≠ "capabilities".toList) (h2 : cmd ≠ "list".toList)
    (h3 : cmd ≠ "push".toList) :
    loopBody args repo st line =
      ({ st with stderr := st.stderr ++ [Log.receivedCommand (trimSpace line)] }, none) ∧
    ∀ lines : List Str,
      loop args repo st (line :: lines) =
        loop args repo
          { st with stderr := st.stderr ++ [Log.receivedCommand (trimSpace line)] } lines := by
  have hfields : ∃ rest, fields line = cmd :: rest := by
    cases hf : fields line with
    | nil => rw [hf] at h; exact Option.noConfusion h
    | cons a rest =>
      rw [hf] at h
      exact ⟨rest, by rw [Option.some.inj h]⟩
  obtain ⟨rest, hrest⟩ := hfields
  have hbody := loopBody_other args repo st line cmd rest hrest h1 h2 h3
  refine ⟨hbody, fun lines => ?_⟩
  rw [loop, hbody]

/-- Witness of C8 amended: the line `fetch abc refs/heads/master`. -/
theorem unknown_command_is_skipped_witness :
    loopBody ["origin".toList, "joystream://c/o/n".toList]
        { chainID := "c".toList, owner := "o".toList, name := "n".toList }
        ⟨[], [], [["a:b".toList]]⟩ "fetch abc refs/heads/master\n".toList =
      (⟨[], [Log.receivedCommand "fetch abc refs/heads/master".toList], [["a:b".toList]]⟩,
        none) :=
  (unknown_command_is_skipped ["origin".toList, "joystream://c/o/n".toList]
    { chainID := "c".toList, owner := "o".toList, name := "n".toList }
    ⟨[], [], [["a:b".toList]]⟩ "fetch abc refs/heads/master\n".toList "fetch".toList
    (by decide) (by decide) (by decide) (by decide)).1

/-- C9, at the failing input: `handleList` answers `list foo` with the error
`Bad list request: [foo]` and writes nothing to standard output, but `cmdRoot` drops
that error: the loop goes on (it answers the `capabilities` line that follows), returns
nil, and the process exits with status 0.  The lines `list` and `list for-push` give no
error and one newline. -/
theorem bad_list_request_error_is_dropped :
    handleList { chainID := "c".toList, owner := "o".toList, name := "n".toList }
        ["foo".toList] =
      (⟨[], [Log.listingRefs { chainID := "c".toList, owner := "o".toList, name := "n".toList }
          ["foo".toList]]⟩, some "Bad list request: [foo]".toList) ∧
    (cmdRoot ["origin".toList, "joystream://c/o/n".toList]
        "list foo\ncapabilities\n".toList).1.stdout = "push\n\n".toList ∧
    (cmdRoot ["origin".toList, "joystream://c/o/n".toList]
        "list foo\ncapabilities\n".toList).2 = Exit.returned none ∧
    (main ["origin".toList, "joystream://c/o/n".toList]
        "list foo\ncapabilities\n".toList).2 = 0 ∧
    (cmdRoot ["origin".toList, "joystream://c/o/n".toList]
        "list for-push extra\n".toList).2 = Exit.returned none ∧
    (cmdRoot ["origin".toList, "joystream://c/o/n".toList] "list\n".toList).1.stdout =
      "\n".toList ∧
    (cmdRoot ["origin".toList, "joystream://c/o/n".toList] "list for-push\n".toList).1.stdout =
      "\n".toList := by
  decide

/-- C10, at the failing input: under the invocation with the URL as its only argument
(which parses), the line `push refs/heads/master:refs/heads/master` ends the run in a
run-time fault (the diagnostic of the push branch reads a second argument), with an
empty batch, and the process exits with status 2; with two arguments the same line is
appended to the batch and the run returns nil. -/
theorem one_argument_push_faults :
    cmdRoot ["joystream://c/o/n".toList]
        "push refs/heads/master:refs/heads/master\n".toList =
      (⟨[], [Log.starting "c".toList "o".toList "n".toList,
          Log.receivedCommand "push refs/heads/master:refs/heads/master".toList], []⟩,
        Exit.fault "index out of range".toList) ∧
    (main ["joystream://c/o/n".toList]
        "push refs/heads/master:refs/heads/master\n".toList).2 = 2 ∧
    (cmdRoot ["origin".toList, "joystream://c/o/n".toList]
        "push refs/heads/master:refs/heads/master\n".toList).1.pushBatch =
      [["refs/heads/master:refs/heads/master".toList]] ∧
    (cmdRoot ["origin".toList, "joystream://c/o/n".toList]
        "push refs/heads/master:refs/heads/master\n".toList).2 = Exit.returned none := by
  decide

end GitRemoteJoystream

/-! ## The claims on the receive-pack session -/

namespace Cli

/-- On a session that `NewReceivePackSession` has just created, `reportStatus` gives the
unpack status `ok` and no command status, whatever the order of the map iteration. -/
theorem reportStatus_fresh (order : StatusMap → StatusMap)
    (horder : ∀ m, List.Perm (order m) m) (c : joystreamClient) (ep : Endpoint) :
    reportStatus order (NewReceivePackSession c ep) = ⟨"ok".toList, []⟩ := by
  have hnil : order [] = [] := List.Perm.eq_nil (horder [])
  simp [reportStatus, NewReceivePackSession, NewReportStatus, hnil]

/-- C2, as stated, fails: for a request with one command, on a fresh session, with the
packfile read and closed and the broadcast accepted, the report has the unpack status
`ok` but no command status at all. -/
theorem receive_pack_success_has_no_statuses :
    masterRequest.Commands.length = 1 ∧
    ReceivePack id acceptingLedger (NewReceivePackSession sampleClient sampleClient.ep)
        masterRequest =
      Result.ret ⟨"ok".toList, []⟩ none ∧
    ((ReceivePack id acceptingLedger (NewReceivePackSession sampleClient sampleClient.ep)
        masterRequest).report.map fun rs => rs.CommandStatuses.length) ≠
      some masterRequest.Commands.length := by
  decide

/-- C2, amended: for every request (any number of commands), on a freshly created
session with a non-empty endpoint path, when the packfile is read and closed without
error, the message is built and the broadcast succeeds, `ReceivePack` returns the nil
error and a report with the unpack status `ok` and no command status. -/
theorem receive_pack_success_report {Msg : Type} (order : StatusMap → StatusMap)
    (horder : ∀ m, List.Perm (order m) m) (ledger : Ledger Msg) (c : joystreamClient)
    (ep : Endpoint) (req : ReferenceUpdateRequest) (buf : List UInt8) (first : Char)
    (repoURI : Str) (msg : Msg)
    (hcopy : req.Packfile.copy = Except.ok buf) (hclose : req.Packfile.close = none)
    (hpath : ep.Path = first :: repoURI)
    (hmsg : ledger.NewMsgUpdateReferences repoURI req buf c.author = Except.ok msg)
    (hsend : ledger.CompleteAndBroadcastTxCli msg = none) :
    ReceivePack order ledger (NewReceivePackSession c ep) req =
      Result.ret ⟨"ok".toList, []⟩ none := by
  have hs : (NewReceivePackSession c ep).endpoint.Path = first :: repoURI := hpath
  have ha : (NewReceivePackSession c ep).client.author = c.author := rfl
  unfold ReceivePack
  simp only [hcopy, hclose, hs, ha, hmsg, hsend, reportStatus_fresh order horder c ep]

/-- Witness of C2 amended: the request for `refs/heads/master` on an accepting ledger. -/
theorem receive_pack_success_report_witness :
    ReceivePack id acceptingLedger (NewReceivePackSession sampleClient sampleClient.ep)
        masterRequest =
      Result.ret ⟨"ok".toList, []⟩ none :=
  receive_pack_success_report id (fun m => List.Perm.refl m) acceptingLedger sampleClient
    sampleClient.ep masterRequest [] '/' "owner/repo".toList ["refs/heads/master".toList]
    rfl rfl rfl rfl rfl

/-- C3, as stated, fails: for a request with one command, on a fresh session, when the
broadcast fails with the error `broadcast failed`, the report has the unpack status `ok`,
not the text of the error, and no command status; the error is the second result. -/
theorem receive_pack_failure_reports_unpack_ok :
    masterRequest.Commands.length = 1 ∧
    ReceivePack id (failingLedger "broadcast failed".toList)
        (NewReceivePackSession sampleClient sampleClient.ep) masterRequest =
      Result.ret ⟨"ok".toList, []⟩ (some "broadcast failed".toList) ∧
    ((ReceivePack id (failingLedger "broadcast failed".toList)
        (NewReceivePackSession sampleClient sampleClient.ep) masterRequest).report.map
          fun rs => rs.UnpackStatus) ≠ some "broadcast failed".toList ∧
    ((ReceivePack id (failingLedger "broadcast failed".toList)
        (NewReceivePackSession sampleClient sampleClient.ep) masterRequest).report.map
          fun rs => rs.CommandStatuses.length) ≠ some masterRequest.Commands.length := by
  decide

/-- C3, amended: for every request (any number of commands), on a freshly created
session with a non-empty endpoint path, when the packfile is read and closed without
error, the message is built and the broadcast fails with the error `e`, `ReceivePack`
returns `e` itself as its error, next to a report with the unpack status `ok` and no
command status. -/
theorem receive_pack_failure_report {Msg : Type} (order : StatusMap → StatusMap)
    (horder : ∀ m, List.Perm (order m) m) (ledger : Ledger Msg) (c : joystreamClient)
    (ep : Endpoint) (req : ReferenceUpdateRequest) (buf : List UInt8) (first : Char)
    (repoURI : Str) (msg : Msg) (e : Error)
    (hcopy : req.Packfile.copy = Except.ok buf) (hclose : req.Packfile.close = none)
    (hpath : ep.Path = first :: repoURI)
    (hmsg : ledger.NewMsgUpdateReferences repoURI req buf c.author = Except.ok msg)
    (hsend : ledger.CompleteAndBroadcastTxCli msg = some e) :
    ReceivePack order ledger (NewReceivePackSession c ep) req =
      Result.ret ⟨"ok".toList, []⟩ (some e) := by
  have hs : (NewReceivePackSession c ep).endpoint.Path = first :: repoURI := hpath
  have ha : (NewReceivePackSession c ep).client.author = c.author := rfl
  unfold ReceivePack
  simp only [hcopy, hclose, hs, ha, hmsg, hsend, reportStatus_fresh order horder c ep]

/-- Witness of C3 amended: the request for `refs/heads/master` on a ledger whose
broadcast fails. -/
theorem receive_pack_failure_report_witness :
    ReceivePack id (failingLedger "broadcast failed".toList)
        (NewReceivePackSession sampleClient sampleClient.ep) masterRequest =
      Result.ret ⟨"ok".toList, []⟩ (some "broadcast failed".toList) :=
  receive_pack_failure_report id (fun m => List.Perm.refl m)
    (failingLedger "broadcast failed".toList) sampleClient sampleClient.ep masterRequest []
    '/' "owner/repo".toList ["refs/heads/master".toList] "broadcast failed".toList
    rfl rfl rfl rfl rfl

end Cli
